import Mathlib

/-!
Verification of the golden-dataset run-orchestration system against its
specification.

The repository ships the React dashboard (`ConfigPage.jsx`, `DashboardPage`,
`ResultsPage`) together with documentation of the Python orchestration
backend.  The frontend functions are embedded directly from their source;
the orchestration core (task ordering, conversation store, retry loop,
run coordinator, dataset recorder) is not present in the source tree, so it
is modelled from the specification, as flagged on each definition.
-/

namespace GoldenDataset

/-! ## Results page: `formatBytes` (src/unnamed/part_000, lines 75-81) -/

/-- Embedding of JavaScript `Math.round` on exact rationals: round half toward
positive infinity. -/
def jsRound (q : ℚ) : ℤ := ⌊q + 1/2⌋

/-- The `sizes` array of `formatBytes`. -/
def byteSizes : List String := ["Bytes", "KB", "MB", "GB"]

/-- The unit index `Math.floor(Math.log(bytes) / Math.log(1024))`, i.e. the
base-1024 integer logarithm, embedded with exact arithmetic (`Nat.log`). -/
def unitIndex (bytes : ℕ) : ℕ := Nat.log 1024 bytes

/-- Result of `formatBytes`: either the early-returned literal string, or the
rounded numeric value together with the array lookup `sizes[i]`, which in
JavaScript is `undefined` (here `none`) when `i` is out of bounds. -/
inductive BytesFormat where
  | literal (s : String)
  | formatted (value : ℚ) (unit : Option String)
deriving DecidableEq, Repr

/-- Embedding of `formatBytes` from the Results page:
`if (bytes === 0) return '0 Bytes';` then
`Math.round(bytes / Math.pow(k, i) * 100) / 100 + ' ' + sizes[i]` with
`i = Math.floor(Math.log(bytes) / Math.log(k))`, `k = 1024`.  The
floating-point `Math.log` / `Math.round` are modelled with exact
rational arithmetic. -/
def formatBytes (bytes : ℕ) : BytesFormat :=
  if bytes = 0 then .literal "0 Bytes"
  else
    .formatted ((jsRound ((bytes : ℚ) / 1024 ^ unitIndex bytes * 100) : ℚ) / 100)
      (byteSizes.get? (unitIndex bytes))

example : formatBytes 0 = .literal "0 Bytes" := rfl

example : formatBytes 2048 = .formatted 2 (some "KB") := by
  have h : unitIndex 2048 = 1 := Nat.log_eq_of_pow_le_of_lt_pow (by norm_num) (by norm_num)
  simp only [formatBytes, h, byteSizes]
  norm_num [jsRound]

/-! ## Dashboard page: Max Iterations input (ConfigPage.jsx, lines 456-466) -/

/-- Numeric value of a list of decimal digit characters. -/
def digitsValue (cs : List Char) : ℕ :=
  cs.foldl (fun acc c => acc * 10 + (c.toNat - '0'.toNat)) 0

/-- Embedding of JavaScript `parseInt(s)` (radix 10): skip leading
whitespace, read an optional sign, then the maximal run of decimal digits;
`NaN` (here `none`) when no digit is read. -/
def parseIntJS (s : String) : Option ℤ :=
  let cs := s.data.dropWhile (fun c => c = ' ' ∨ c = '\t' ∨ c = '\n' ∨ c = '\r')
  let core : List Char → Option ℕ := fun l =>
    let ds := l.takeWhile Char.isDigit
    if ds.isEmpty then none else some (digitsValue ds)
  match cs with
  | '-' :: rest => (core rest).map (fun n => -(n : ℤ))
  | '+' :: rest => (core rest).map (fun n => (n : ℤ))
  | _ => (core cs).map (fun n => (n : ℤ))

/-- Embedding of the Max Iterations `onChange` handler:
`setMaxIterations(parseInt(e.target.value) || 20)` — the stored value is the
parsed integer unless the parse is `NaN` or the parsed value is `0` (both
falsy), in which case `20` is stored. -/
def maxIterationsOnChange (text : String) : ℤ :=
  match parseIntJS text with
  | none => 20
  | some n => if n = 0 then 20 else n

example : maxIterationsOnChange "0" = 20 := by decide
example : maxIterationsOnChange "" = 20 := by decide
example : maxIterationsOnChange "abc" = 20 := by decide
example : maxIterationsOnChange "999" = 999 := by decide
example : maxIterationsOnChange "-5" = -5 := by decide
example : maxIterationsOnChange "7" = 7 := by decide

/-! ## Dashboard page: `handleStart` (ConfigPage.jsx, lines 295-332) -/

/-- The body of the `POST /api/automation/start` request issued by
`handleStart`: exactly the fields `models`, `tasks` and `max_iterations`. -/
structure StartRequest where
  models : List String
  tasks : Option (List String)
  max_iterations : ℤ
deriving DecidableEq, Repr

/-- Embedding of `DashboardPage.handleStart`: when no model is selected an
error toast is shown and no request is sent (`none`); otherwise the request
carries the selected models, the selected tasks when non-empty and `null`
otherwise, and the stored `maxIterations` value. -/
def handleStart (selectedModels selectedTasks : List String) (maxIterations : ℤ) :
    Option StartRequest :=
  if selectedModels.length = 0 then none
  else some
    { models := selectedModels
      tasks := if selectedTasks.length > 0 then some selectedTasks else none
      max_iterations := maxIterations }

/-- Path of the follow-up `GET /api/automation/runs/{run_id}` request that
`handleStart` issues on success. -/
def runStatusPath (runId : String) : String := "/api/automation/runs/" ++ runId

/-- The success continuation of `handleStart`: when a request is sent and the
backend (`post`) answers with a run identifier, that identifier is used to
fetch the run's status. -/
def handleStartThenFetch (post : StartRequest → String)
    (selectedModels selectedTasks : List String) (maxIterations : ℤ) :
    Option String :=
  (handleStart selectedModels selectedTasks maxIterations).map
    (fun req => runStatusPath (post req))

example : handleStart [] ["c1_2"] 20 = none := by decide
example : handleStart ["m1"] [] 20 =
    some { models := ["m1"], tasks := none, max_iterations := 20 } := by decide
example : handleStart ["m1"] ["c1_2"] 5 =
    some { models := ["m1"], tasks := some ["c1_2"], max_iterations := 5 } := by decide

/-- C10: `formatBytes` returns the string "0 Bytes" for input 0; for every
input `b ≥ 1` it returns `b / 1024 ^ i` rounded to two decimal places paired
with the unit `sizes[i]`, where `i` is the base-1024 floor logarithm of `b`
(characterised by `1024 ^ i ≤ b < 1024 ^ (i + 1)`); for `b < 1024 ^ 4` the
unit lookup is defined, and for `b ≥ 1024 ^ 4` the index exceeds the array
and the unit is `undefined` (`none`). -/
theorem formatBytes_correct (b : ℕ) :
    formatBytes 0 = BytesFormat.literal "0 Bytes" ∧
    (1 ≤ b →
      1024 ^ unitIndex b ≤ b ∧ b < 1024 ^ (unitIndex b + 1) ∧
      formatBytes b =
        BytesFormat.formatted ((jsRound ((b : ℚ) / 1024 ^ unitIndex b * 100) : ℚ) / 100)
          (byteSizes.get? (unitIndex b)) ∧
      (b < 1024 ^ 4 → ∃ u : String, byteSizes.get? (unitIndex b) = some u) ∧
      (1024 ^ 4 ≤ b → byteSizes.get? (unitIndex b) = none)) := by
  refine ⟨rfl, fun hb => ?_⟩
  have hb0 : b ≠ 0 := by omega
  refine ⟨Nat.pow_log_le_self 1024 hb0, Nat.lt_pow_succ_log_self (by norm_num) b, ?_, ?_, ?_⟩
  · simp [formatBytes, hb0]
  · intro hlt
    have hi : unitIndex b < 4 := Nat.log_lt_of_lt_pow hb0 hlt
    have hlen : unitIndex b < byteSizes.length := by simpa [byteSizes] using hi
    exact ⟨byteSizes.get ⟨unitIndex b, hlen⟩, List.get?_eq_get hlen⟩
  · intro hge
    have hi : 4 ≤ unitIndex b := (Nat.pow_le_iff_le_log (by norm_num) hb0).mp hge
    exact List.get?_eq_none.mpr (by simpa [byteSizes] using hi)

/-- Closed witness for `formatBytes_correct` at `b = 2048`. -/
theorem formatBytes_correct_witness :
    1024 ^ unitIndex 2048 ≤ 2048 ∧ 2048 < 1024 ^ (unitIndex 2048 + 1) ∧
    formatBytes 2048 =
      BytesFormat.formatted ((jsRound ((2048 : ℚ) / 1024 ^ unitIndex 2048 * 100) : ℚ) / 100)
        (byteSizes.get? (unitIndex 2048)) ∧
    (2048 < 1024 ^ 4 → ∃ u : String, byteSizes.get? (unitIndex 2048) = some u) ∧
    (1024 ^ 4 ≤ 2048 → byteSizes.get? (unitIndex 2048) = none) :=
  (formatBytes_correct 2048).2 (by norm_num)

/-- C9: the Max Iterations change handler stores the parsed integer whenever
the JavaScript parse yields a nonzero number and 20 otherwise: "0", "" and
non-numeric text store 20, while out-of-range values such as 999 or -5 are
stored unchanged; `handleStart` sends the stored value as `max_iterations`
verbatim. -/
theorem maxIterations_onChange_correct :
    (∀ s : String, ∀ n : ℤ, parseIntJS s = some n → n ≠ 0 → maxIterationsOnChange s = n) ∧
    (∀ s : String, parseIntJS s = none → maxIterationsOnChange s = 20) ∧
    (∀ s : String, parseIntJS s = some 0 → maxIterationsOnChange s = 20) ∧
    maxIterationsOnChange "0" = 20 ∧
    maxIterationsOnChange "" = 20 ∧
    maxIterationsOnChange "abc" = 20 ∧
    maxIterationsOnChange "999" = 999 ∧
    maxIterationsOnChange "-5" = -5 ∧
    (∀ ms ts : List String, ∀ v : ℤ, ∀ r : StartRequest,
      handleStart ms ts v = some r → r.max_iterations = v) := by
  refine ⟨?_, ?_, ?_, by decide, by decide, by decide, by decide, by decide, ?_⟩
  · intro s n h hn
    simp [maxIterationsOnChange, h, hn]
  · intro s h
    simp [maxIterationsOnChange, h]
  · intro s h
    simp [maxIterationsOnChange, h]
  · intro ms ts v r h
    unfold handleStart at h
    split at h
    · exact absurd h (by simp)
    · cases h
      rfl

/-- Closed witness for `maxIterations_onChange_correct` at input "7". -/
theorem maxIterations_onChange_witness : maxIterationsOnChange "7" = 7 :=
  maxIterations_onChange_correct.1 "7" 7 (by decide) (by decide)

/-- C8: `handleStart` sends no request (and surfaces an error) when no model
is selected; otherwise it sends exactly the fields `models`, `tasks`
(the selected list when non-empty, `null` meaning all tasks otherwise) and
`max_iterations`, and on success the returned run identifier is used to fetch
that run's status. -/
theorem handleStart_correct (ms ts : List String) (mi : ℤ) (post : StartRequest → String) :
    (ms = [] → handleStart ms ts mi = none) ∧
    (ms ≠ [] →
      handleStart ms ts mi = some
        { models := ms
          tasks := if ts = [] then none else some ts
          max_iterations := mi }) ∧
    (∀ r : StartRequest, handleStart ms ts mi = some r →
      handleStartThenFetch post ms ts mi = some ("/api/automation/runs/" ++ post r)) := by
  refine ⟨fun h => ?_, fun h => ?_, fun r h => ?_⟩
  · simp [handleStart, h]
  · have hlen : ms.length ≠ 0 := by simpa using h
    cases ts with
    | nil => simp [handleStart, hlen]
    | cons a l => simp [handleStart, hlen]
  · simp [handleStartThenFetch, h, runStatusPath]

/-- Closed witness for `handleStart_correct` with one model selected. -/
theorem handleStart_correct_witness :
    handleStart ["m1"] ["c1_2"] 20 = some
      { models := ["m1"]
        tasks := if (["c1_2"] : List String) = [] then none else some ["c1_2"]
        max_iterations := 20 } :=
  (handleStart_correct ["m1"] ["c1_2"] 20 (fun _ => "r")).2.1 (by decide)

/-! ## Task Catalog and dependency ordering (spec sections 3, 4.1)

The backend module `task_definitions.py` holding the catalog and the
dependency-aware ordering is not present in the source tree; the data model
and the ordering function are modelled from the specification. -/

/-- Modelled from the spec: the operation kind of a task
(CREATE/READ/UPDATE/DELETE, spec section 3). -/
inductive OpKind where
  | create | readOp | update | delete
deriving DecidableEq, Repr

/-- Modelled from the spec: `TaskDefinition` (spec section 3) of the missing
`task_definitions.py`: identifier, prompt text, operation kind, the set of
task identifiers it depends on, and the cleanup-after-success flag. -/
structure TaskDefinition where
  id : String
  prompt : String
  opKind : OpKind
  depends_on : List String
  cleanup : Bool
deriving DecidableEq, Repr

/-- Modelled from the spec: configuration errors of the ordering function —
a dependency missing from the requested subset, or a dependency cycle
(spec section 4.1, section 7). -/
inductive OrderError where
  | missingDep (task dep : String)
  | cycle (members : List String)
deriving DecidableEq, Repr

/-- Modelled from the spec: the requested subset of the catalog, in
catalog-declaration order; `none` selects all tasks (spec section 4.1). -/
def requestedTasks (catalog : List TaskDefinition) (req : Option (List String)) :
    List TaskDefinition :=
  match req with
  | none => catalog
  | some ids => catalog.filter (fun t => ids.contains t.id)

/-- Identifiers of the requested tasks, in catalog-declaration order. -/
def requestedIds (catalog : List TaskDefinition) (req : Option (List String)) :
    List String :=
  (requestedTasks catalog req).map (·.id)

/-- A task is ready once all of its declared dependencies are ordered. -/
def ready (done : List String) (t : TaskDefinition) : Bool :=
  t.depends_on.all (fun d => done.contains d)

/-- Modelled from the spec: round-based stable topological ordering.  Each
round appends, in catalog-declaration order, every pending task whose
dependencies are already ordered; if no task is ready while some are pending,
ordering fails with a fatal configuration error naming the unorderable tasks
(which contain every cycle member).  Fuel bounds the rounds; one pending task
per round always suffices. -/
def topoAux : ℕ → List String → List TaskDefinition → Except OrderError (List String)
  | 0, done, pending =>
      if pending.isEmpty then .ok done else .error (.cycle (pending.map (·.id)))
  | fuel + 1, done, pending =>
      if pending.isEmpty then .ok done
      else if (pending.filter (ready done)).isEmpty then
        .error (.cycle (pending.map (·.id)))
      else topoAux fuel (done ++ (pending.filter (ready done)).map (·.id))
          (pending.filter (fun t => !ready done t))

/-- Modelled from the spec: the ordering function of spec section 4.1 — given
the catalog and a requested subset (or "all"), first reject any requested task
whose dependency is not in the requested subset, then order the subset
topologically, failing on cycles. -/
def orderTasks (catalog : List TaskDefinition) (req : Option (List String)) :
    Except OrderError (List String) :=
  let tasks := requestedTasks catalog req
  let ids := tasks.map (·.id)
  match tasks.find? (fun t => !t.depends_on.all (fun d => ids.contains d)) with
  | some t => .error (.missingDep t.id
      ((t.depends_on.filter (fun d => !ids.contains d)).headD ""))
  | none => topoAux tasks.length [] tasks

/-- The dependency edge relation of a task list: `a` depends on `b`. -/
def depEdge (tasks : List TaskDefinition) (a b : String) : Prop :=
  ∃ t, t ∈ tasks ∧ t.id = a ∧ b ∈ t.depends_on

/-- A task identifier lies on a dependency cycle when it transitively depends
on itself. -/
def OnCycle (tasks : List TaskDefinition) (a : String) : Prop :=
  Relation.TransGen (depEdge tasks) a a

/-- The dependency edges of the task list contain a cycle. -/
def HasDepCycle (tasks : List TaskDefinition) : Prop := ∃ a, OnCycle tasks a

/-- Every declared dependency of the task list refers to a task in the list. -/
def DepsClosed (tasks : List TaskDefinition) : Prop :=
  ∀ t ∈ tasks, ∀ d ∈ t.depends_on, d ∈ tasks.map (·.id)

/-- The identifier names a task of the list with no declared dependency. -/
def noDeps (tasks : List TaskDefinition) (a : String) : Bool :=
  tasks.all (fun t => (t.id != a) || t.depends_on.isEmpty)

section OrderingExamples

private def taskA : TaskDefinition := ⟨"a", "create A", .create, [], true⟩
private def taskB : TaskDefinition := ⟨"b", "update A", .update, ["a"], false⟩
private def taskC : TaskDefinition := ⟨"c", "delete A", .delete, ["b"], true⟩
private def taskLoopX : TaskDefinition := ⟨"x", "x", .create, ["y"], true⟩
private def taskLoopY : TaskDefinition := ⟨"y", "y", .create, ["x"], true⟩

example : orderTasks [taskB, taskA, taskC] none = .ok ["a", "b", "c"] := rfl
example : orderTasks [taskA, taskB, taskC] (some ["c", "b", "a"]) = .ok ["a", "b", "c"] := rfl
example : orderTasks [taskA, taskB, taskC] (some ["c", "a"]) =
    .error (.missingDep "c" "b") := rfl
example : orderTasks [taskA, taskLoopX, taskLoopY] none =
    .error (.cycle ["x", "y"]) := rfl

end OrderingExamples

/-! ### Helper lemmas for the ordering proofs -/

lemma taskId_inj {tasks : List TaskDefinition} (hids : (tasks.map (·.id)).Nodup)
    {t u : TaskDefinition} (ht : t ∈ tasks) (hu : u ∈ tasks) (hid : t.id = u.id) :
    t = u :=
  List.inj_on_of_nodup_map hids ht hu hid

lemma ready_iff {done : List String} {t : TaskDefinition} :
    ready done t = true ↔ ∀ d ∈ t.depends_on, d ∈ done := by
  simp [ready]

lemma noDeps_iff_of_mem {tasks : List TaskDefinition} (hids : (tasks.map (·.id)).Nodup)
    {t : TaskDefinition} (ht : t ∈ tasks) :
    noDeps tasks t.id = true ↔ t.depends_on = [] := by
  unfold noDeps
  rw [List.all_eq_true]
  constructor
  · intro h
    have h2 := h t ht
    simpa using h2
  · intro h u hu
    by_cases hid : u.id = t.id
    · have hut : u = t := taskId_inj hids hu ht hid
      subst hut
      simp [h]
    · simp [hid]

lemma headD_mem {l : List String} (h : l ≠ []) (x : String) : l.headD x ∈ l := by
  cases l with
  | nil => exact absurd rfl h
  | cons a as => simp

lemma onCycle_mem_ids {tasks : List TaskDefinition} {a : String}
    (h : OnCycle tasks a) : a ∈ tasks.map (·.id) := by
  obtain ⟨b, hab, -⟩ := Relation.TransGen.head'_iff.mp h
  obtain ⟨t, ht, hid, -⟩ := hab
  exact hid ▸ List.mem_map_of_mem _ ht

/-- A blocked state of the ordering: when every unordered task has an
unordered dependency, the dependency edges contain a cycle (pigeonhole over
iterated dependency choices). -/
lemma hasDepCycle_of_blocked (tasks : List TaskDefinition) (P : List String)
    (hne : P ≠ []) (H : ∀ a ∈ P, ∃ b ∈ P, depEdge tasks a b) :
    HasDepCycle tasks := by
  have hstep : ∀ x : {a // a ∈ P}, ∃ y : {a // a ∈ P}, depEdge tasks x.1 y.1 := by
    rintro ⟨a, ha⟩
    obtain ⟨b, hb, he⟩ := H a ha
    exact ⟨⟨b, hb⟩, he⟩
  choose f hf using hstep
  obtain ⟨a0, ha0⟩ := List.exists_mem_of_ne_nil P hne
  have hedge : ∀ n : ℕ, depEdge tasks (f^[n] ⟨a0, ha0⟩).1 (f^[n + 1] ⟨a0, ha0⟩).1 := by
    intro n
    rw [Function.iterate_succ_apply']
    exact hf _
  have htrans : ∀ i j : ℕ, i < j →
      Relation.TransGen (depEdge tasks) (f^[i] ⟨a0, ha0⟩).1 (f^[j] ⟨a0, ha0⟩).1 := by
    intro i j hij
    induction j, hij using Nat.le_induction with
    | base => exact Relation.TransGen.single (hedge i)
    | succ j hij ih => exact ih.tail (hedge j)
  have hmaps : ∀ n ∈ Finset.range (P.length + 1), (f^[n] ⟨a0, ha0⟩).1 ∈ P.toFinset := by
    intro n _
    exact List.mem_toFinset.mpr (f^[n] ⟨a0, ha0⟩).2
  have hcard : P.toFinset.card < (Finset.range (P.length + 1)).card := by
    rw [Finset.card_range]
    exact Nat.lt_succ_of_le P.toFinset_card_le
  obtain ⟨i, -, j, -, hne2, heq⟩ :=
    Finset.exists_ne_map_eq_of_card_lt_of_maps_to hcard hmaps
  rcases Nat.lt_or_ge i j with hij | hge
  · exact ⟨(f^[i] ⟨a0, ha0⟩).1, heq ▸ htrans i j hij⟩
  · have hji : j < i := by omega
    exact ⟨(f^[j] ⟨a0, ha0⟩).1, heq ▸ htrans j i hji⟩

lemma round_perm {done : List String} {pending : List TaskDefinition} {ids : List String}
    (hperm : (done ++ pending.map (·.id)).Perm ids) (p : TaskDefinition → Bool) :
    ((done ++ (pending.filter p).map (·.id))
        ++ (pending.filter (fun t => !p t)).map (·.id)).Perm ids := by
  have h1 : ((pending.filter p).map (·.id)
      ++ (pending.filter (fun t => !p t)).map (·.id)).Perm (pending.map (·.id)) := by
    have h2 := (List.filter_append_perm p pending).map (·.id)
    simpa using h2
  rw [List.append_assoc]
  exact (h1.append_left done).trans hperm

lemma blocked_of_no_ready {allTasks pending : List TaskDefinition} {done : List String}
    (hclosed : DepsClosed allTasks)
    (hmem : ∀ t ∈ pending, t ∈ allTasks)
    (hperm : (done ++ pending.map (·.id)).Perm (allTasks.map (·.id)))
    (hstuck : pending.filter (ready done) = []) :
    ∀ a ∈ pending.map (·.id), ∃ b ∈ pending.map (·.id), depEdge allTasks a b := by
  intro a ha
  obtain ⟨t, ht, rfl⟩ := List.mem_map.mp ha
  have hnr : ¬ ready done t = true := by
    intro hr
    have hmf : t ∈ pending.filter (ready done) := List.mem_filter.mpr ⟨ht, hr⟩
    simp [hstuck] at hmf
  obtain ⟨d, hd, hdnotdone⟩ : ∃ d ∈ t.depends_on, d ∉ done := by
    by_contra hcon
    push_neg at hcon
    exact hnr (ready_iff.mpr hcon)
  have hdid : d ∈ allTasks.map (·.id) := hclosed t (hmem t ht) d hd
  have hdin : d ∈ done ++ pending.map (·.id) := hperm.symm.subset hdid
  have hdp : d ∈ pending.map (·.id) := by
    rcases List.mem_append.mp hdin with h | h
    · exact absurd h hdnotdone
    · exact h
  exact ⟨d, hdp, ⟨t, hmem t ht, rfl, hd⟩⟩

lemma ordered_edges_of_done {allTasks : List TaskDefinition} {done : List String}
    (hperm : done.Perm (allTasks.map (·.id)))
    (hdone : ∀ t ∈ allTasks, t.id ∈ done → ∀ d ∈ t.depends_on,
        d ∈ done ∧ done.indexOf d < done.indexOf t.id) :
    ∀ t ∈ allTasks, ∀ d ∈ t.depends_on,
      d ∈ done ∧ done.indexOf d < done.indexOf t.id :=
  fun t ht d hd =>
    hdone t ht (hperm.symm.subset (List.mem_map_of_mem _ ht)) d hd

/-- Fuel-indexed success run of the round-based topological sort: under
acyclicity every round makes progress, and the final order is a permutation
of the task identifiers that places every dependency before its dependent and
keeps dependency-free tasks in declaration order. -/
lemma topoAux_ok_of_acyclic (allTasks : List TaskDefinition)
    (hids : (allTasks.map (·.id)).Nodup)
    (hclosed : DepsClosed allTasks)
    (hacyc : ¬ HasDepCycle allTasks) :
    ∀ (fuel : ℕ) (done : List String) (pending : List TaskDefinition),
      pending.length ≤ fuel →
      (∀ t ∈ pending, t ∈ allTasks) →
      (done ++ pending.map (·.id)).Perm (allTasks.map (·.id)) →
      (∀ t ∈ allTasks, t.id ∈ done → ∀ d ∈ t.depends_on,
          d ∈ done ∧ done.indexOf d < done.indexOf t.id) →
      done.filter (noDeps allTasks) ++ (pending.map (·.id)).filter (noDeps allTasks)
          = (allTasks.map (·.id)).filter (noDeps allTasks) →
      ∃ order, topoAux fuel done pending = .ok order ∧
        order.Perm (allTasks.map (·.id)) ∧
        (∀ t ∈ allTasks, ∀ d ∈ t.depends_on,
            d ∈ order ∧ order.indexOf d < order.indexOf t.id) ∧
        order.filter (noDeps allTasks)
          = (allTasks.map (·.id)).filter (noDeps allTasks) := by
  intro fuel
  induction fuel with
  | zero =>
    intro done pending hlen hmem hperm hdone hfilter
    have hpe : pending = [] := List.length_eq_zero.mp (Nat.le_zero.mp hlen)
    subst hpe
    have hperm2 : done.Perm (allTasks.map (·.id)) := by simpa using hperm
    exact ⟨done, by simp [topoAux], hperm2,
      ordered_edges_of_done hperm2 hdone, by simpa using hfilter⟩
  | succ fuel ih =>
    intro done pending hlen hmem hperm hdone hfilter
    by_cases hpe : pending = []
    · subst hpe
      have hperm2 : done.Perm (allTasks.map (·.id)) := by simpa using hperm
      exact ⟨done, by simp [topoAux], hperm2,
        ordered_edges_of_done hperm2 hdone, by simpa using hfilter⟩
    have hpeb : pending.isEmpty = false := by simpa [List.isEmpty_iff] using hpe
    -- the round cannot be blocked, or the pending tasks would contain a cycle
    have hready : ¬ (pending.filter (ready done)).isEmpty = true := by
      intro hstuck
      rw [List.isEmpty_iff] at hstuck
      exact hacyc (hasDepCycle_of_blocked allTasks (pending.map (·.id))
        (by simpa using hpe) (blocked_of_no_ready hclosed hmem hperm hstuck))
    have hstep : topoAux (fuel + 1) done pending
        = topoAux fuel (done ++ (pending.filter (ready done)).map (·.id))
            (pending.filter (fun t => !ready done t)) := by
      simp only [topoAux, hpeb, Bool.false_eq_true, if_false]
      rw [if_neg hready]
    rw [hstep]
    have hnodup0 : (done ++ pending.map (·.id)).Nodup := hperm.nodup_iff.mpr hids
    have hdisj : done.Disjoint (pending.map (·.id)) :=
      List.disjoint_of_nodup_append hnodup0
    -- progress: the ready tasks are removed from pending
    have hlen2 : (pending.filter (fun t => !ready done t)).length ≤ fuel := by
      have hsplit := (List.filter_append_perm (ready done) pending).length_eq
      have hpos : 0 < (pending.filter (ready done)).length := by
        cases hflt : pending.filter (ready done) with
        | nil => exact absurd (by simp [hflt]) hready
        | cons a l => simp [hflt]
      rw [List.length_append] at hsplit
      omega
    have hmem2 : ∀ t ∈ pending.filter (fun t => !ready done t), t ∈ allTasks :=
      fun t ht => hmem t (List.mem_of_mem_filter ht)
    have hperm2 := round_perm hperm (ready done)
    -- ordering invariant after appending the ready tasks
    have hdone2 : ∀ t ∈ allTasks,
        t.id ∈ done ++ (pending.filter (ready done)).map (·.id) →
        ∀ d ∈ t.depends_on,
          d ∈ done ++ (pending.filter (ready done)).map (·.id) ∧
          (done ++ (pending.filter (ready done)).map (·.id)).indexOf d
            < (done ++ (pending.filter (ready done)).map (·.id)).indexOf t.id := by
      intro t ht htid d hd
      rcases List.mem_append.mp htid with hold | hnew
      · obtain ⟨hdm, hidx⟩ := hdone t ht hold d hd
        refine ⟨List.mem_append_left _ hdm, ?_⟩
        rw [List.indexOf_append_of_mem hdm, List.indexOf_append_of_mem hold]
        exact hidx
      · obtain ⟨r, hr, hrid⟩ := List.mem_map.mp hnew
        have hrp : r ∈ pending := List.mem_of_mem_filter hr
        have hrready : ready done r = true := (List.mem_filter.mp hr).2
        have htr : t = r := taskId_inj hids ht (hmem r hrp) hrid.symm
        subst htr
        have hddone : d ∈ done := ready_iff.mp hrready d hd
        refine ⟨List.mem_append_left _ hddone, ?_⟩
        have htnotdone : t.id ∉ done := fun hin =>
          hdisj hin (List.mem_map_of_mem _ hrp)
        rw [List.indexOf_append_of_mem hddone,
          List.indexOf_append_of_not_mem htnotdone]
        have hidxd : done.indexOf d < done.length := List.indexOf_lt_length.mpr hddone
        omega
    -- declaration-order invariant for dependency-free tasks
    have hfilter2 :
        (done ++ (pending.filter (ready done)).map (·.id)).filter (noDeps allTasks)
          ++ ((pending.filter (fun t => !ready done t)).map (·.id)).filter (noDeps allTasks)
          = (allTasks.map (·.id)).filter (noDeps allTasks) := by
      have hA : ((pending.filter (fun t => !ready done t)).map (·.id)).filter
          (noDeps allTasks) = [] := by
        rw [List.filter_eq_nil_iff]
        intro a ha
        obtain ⟨t, ht, rfl⟩ := List.mem_map.mp ha
        have htp : t ∈ pending := List.mem_of_mem_filter ht
        have htnr : (!ready done t) = true := (List.mem_filter.mp ht).2
        intro hnd
        have hdeps : t.depends_on = [] :=
          (noDeps_iff_of_mem hids (hmem t htp)).mp hnd
        have : ready done t = true := ready_iff.mpr (by simp [hdeps])
        simp [this] at htnr
      have hB : ((pending.filter (ready done)).map (·.id)).filter (noDeps allTasks)
          = (pending.map (·.id)).filter (noDeps allTasks) := by
        rw [List.filter_map, List.filter_map, List.filter_filter]
        congr 1
        apply List.filter_congr
        intro t ht
        cases hnd : noDeps allTasks t.id with
        | false => simp [Function.comp, hnd]
        | true =>
          have hdeps : t.depends_on = [] :=
            (noDeps_iff_of_mem hids (hmem t ht)).mp hnd
          have hr : ready done t = true := ready_iff.mpr (by simp [hdeps])
          simp [Function.comp, hnd, hr]
      rw [List.filter_append, hA, hB, List.append_nil]
      exact hfilter
    exact ih _ _ hlen2 hmem2 hperm2 hdone2 hfilter2

lemma onCycle_not_ready {allTasks : List TaskDefinition} {done : List String}
    (hids : (allTasks.map (·.id)).Nodup)
    (hcycfree : ∀ b, OnCycle allTasks b → b ∉ done)
    {r : TaskDefinition} (hr : r ∈ allTasks) (hready : ready done r = true)
    (hcyc : OnCycle allTasks r.id) : False := by
  obtain ⟨c, hedge, hback⟩ := Relation.TransGen.head'_iff.mp hcyc
  obtain ⟨t, ht, hid, hdep⟩ := id hedge
  have htr : t = r := taskId_inj hids ht hr hid
  subst htr
  have hcdone : c ∈ done := ready_iff.mp hready c hdep
  have hccyc : OnCycle allTasks c := Relation.TransGen.tail' hback hedge
  exact hcycfree c hccyc hcdone

lemma onCycle_mem_pending {allTasks pending : List TaskDefinition} {done : List String}
    (hperm : (done ++ pending.map (·.id)).Perm (allTasks.map (·.id)))
    (hcycfree : ∀ b, OnCycle allTasks b → b ∉ done)
    {a : String} (ha : OnCycle allTasks a) : a ∈ pending.map (·.id) := by
  have h2 : a ∈ done ++ pending.map (·.id) := hperm.symm.subset (onCycle_mem_ids ha)
  rcases List.mem_append.mp h2 with h | h
  · exact absurd h (hcycfree a ha)
  · exact h

/-- Fuel-indexed cycle run of the round-based topological sort: when the
dependency edges contain a cycle, no cycle member ever becomes ready, so the
sort reports a fatal cycle error whose member list contains every identifier
lying on a cycle. -/
lemma topoAux_cycle_of_hasDepCycle (allTasks : List TaskDefinition)
    (hids : (allTasks.map (·.id)).Nodup) :
    ∀ (fuel : ℕ) (done : List String) (pending : List TaskDefinition),
      (∀ t ∈ pending, t ∈ allTasks) →
      (done ++ pending.map (·.id)).Perm (allTasks.map (·.id)) →
      (∀ b, OnCycle allTasks b → b ∉ done) →
      HasDepCycle allTasks →
      ∃ members, topoAux fuel done pending = .error (.cycle members) ∧
        ∀ a, OnCycle allTasks a → a ∈ members := by
  intro fuel
  induction fuel with
  | zero =>
    intro done pending hmem hperm hcycfree hcyc
    obtain ⟨a, ha⟩ := hcyc
    have hpe : pending.isEmpty = false := by
      have hin := onCycle_mem_pending hperm hcycfree ha
      cases pending with
      | nil => simp at hin
      | cons x xs => rfl
    exact ⟨pending.map (·.id), by simp [topoAux, hpe],
      fun b hb => onCycle_mem_pending hperm hcycfree hb⟩
  | succ fuel ih =>
    intro done pending hmem hperm hcycfree hcyc
    obtain ⟨a, ha⟩ := hcyc
    have hpe : pending.isEmpty = false := by
      have hin := onCycle_mem_pending hperm hcycfree ha
      cases pending with
      | nil => simp at hin
      | cons x xs => rfl
    by_cases hstuck : (pending.filter (ready done)).isEmpty = true
    · refine ⟨pending.map (·.id), ?_,
        fun b hb => onCycle_mem_pending hperm hcycfree hb⟩
      simp only [topoAux, hpe, Bool.false_eq_true, if_false]
      rw [if_pos hstuck]
    · have hstep : topoAux (fuel + 1) done pending
          = topoAux fuel (done ++ (pending.filter (ready done)).map (·.id))
              (pending.filter (fun t => !ready done t)) := by
        simp only [topoAux, hpe, Bool.false_eq_true, if_false]
        rw [if_neg hstuck]
      rw [hstep]
      have hmem2 : ∀ t ∈ pending.filter (fun t => !ready done t), t ∈ allTasks :=
        fun t ht => hmem t (List.mem_of_mem_filter ht)
      have hperm2 := round_perm hperm (ready done)
      have hcycfree2 : ∀ b, OnCycle allTasks b →
          b ∉ done ++ (pending.filter (ready done)).map (·.id) := by
        intro b hb hbin
        rcases List.mem_append.mp hbin with h | h
        · exact hcycfree b hb h
        · obtain ⟨r, hr, hrid⟩ := List.mem_map.mp h
          have hrp : r ∈ pending := List.mem_of_mem_filter hr
          have hrready : ready done r = true := (List.mem_filter.mp hr).2
          exact onCycle_not_ready hids hcycfree (hmem r hrp) hrready (hrid ▸ hb)
      exact ih _ _ hmem2 hperm2 hcycfree2 ⟨a, ha⟩

lemma requestedTasks_ids_nodup {catalog : List TaskDefinition}
    (req : Option (List String)) (hnodup : (catalog.map (·.id)).Nodup) :
    ((requestedTasks catalog req).map (·.id)).Nodup := by
  cases req with
  | none => simpa [requestedTasks] using hnodup
  | some ids =>
    exact hnodup.sublist ((List.filter_sublist catalog).map (·.id))

lemma find?_missing_eq_none {tasks : List TaskDefinition}
    (hclosed : DepsClosed tasks) :
    tasks.find?
      (fun t => !t.depends_on.all (fun d => (tasks.map (·.id)).contains d)) = none := by
  rw [List.find?_eq_none]
  intro t ht
  rw [Bool.not_eq_true, Bool.not_eq_false', List.all_eq_true]
  intro d hd
  simpa using hclosed t ht d hd

/-- C1: for every requested subset of tasks whose dependency edges form no
cycle (and whose declared dependencies lie within the subset), the ordering
function produces a total order of the requested tasks in which every
dependency appears strictly earlier than its dependent task, and tasks with
no declared dependency appear in catalog-declaration order. -/
theorem ordering_acyclic_correct (catalog : List TaskDefinition)
    (req : Option (List String))
    (hnodup : (catalog.map (·.id)).Nodup)
    (hclosed : DepsClosed (requestedTasks catalog req))
    (hacyc : ¬ HasDepCycle (requestedTasks catalog req)) :
    ∃ order, orderTasks catalog req = .ok order ∧
      order.Perm (requestedIds catalog req) ∧
      (∀ t ∈ requestedTasks catalog req, ∀ d ∈ t.depends_on,
          d ∈ order ∧ order.indexOf d < order.indexOf t.id) ∧
      order.filter (noDeps (requestedTasks catalog req))
        = (requestedIds catalog req).filter (noDeps (requestedTasks catalog req)) := by
  have hids := requestedTasks_ids_nodup req hnodup
  have hfind := find?_missing_eq_none hclosed
  obtain ⟨order, hrun, hperm, hedges, hfilter⟩ :=
    topoAux_ok_of_acyclic (requestedTasks catalog req) hids hclosed hacyc
      (requestedTasks catalog req).length [] (requestedTasks catalog req)
      (le_refl _) (fun t ht => ht) (by simp) (by simp) (by simp)
  refine ⟨order, ?_, hperm, fun t ht d hd => hedges t ht d hd, hfilter⟩
  simp only [orderTasks, hfind]
  exact hrun

/-- C2: when the requested subset's dependency edges contain a cycle the
ordering function fails with a fatal configuration error whose member list
names every identifier lying on a cycle, and it never returns an order; a
request naming a task whose dependency is outside the requested subset fails
with a configuration error naming the task and the missing dependency. -/
theorem ordering_failure_modes (catalog : List TaskDefinition)
    (req : Option (List String))
    (hnodup : (catalog.map (·.id)).Nodup) :
    (DepsClosed (requestedTasks catalog req) →
      HasDepCycle (requestedTasks catalog req) →
      ∃ members, orderTasks catalog req = .error (.cycle members) ∧
        (∀ a, OnCycle (requestedTasks catalog req) a → a ∈ members) ∧
        ∀ order, orderTasks catalog req ≠ .ok order) ∧
    (¬ DepsClosed (requestedTasks catalog req) →
      ∃ tid dep, orderTasks catalog req = .error (.missingDep tid dep) ∧
        ∃ t ∈ requestedTasks catalog req, t.id = tid ∧ dep ∈ t.depends_on ∧
          dep ∉ requestedIds catalog req) := by
  have hids := requestedTasks_ids_nodup req hnodup
  constructor
  · intro hclosed hcyc
    have hfind := find?_missing_eq_none hclosed
    obtain ⟨members, hrun, hmembers⟩ :=
      topoAux_cycle_of_hasDepCycle (requestedTasks catalog req) hids
        (requestedTasks catalog req).length [] (requestedTasks catalog req)
        (fun t ht => ht) (by simp) (by simp) hcyc
    refine ⟨members, ?_, hmembers, ?_⟩
    · simp only [orderTasks, hfind]
      exact hrun
    · intro order hok
      rw [show orderTasks catalog req = .error (.cycle members) from by
        simp only [orderTasks, hfind]; exact hrun] at hok
      exact Except.noConfusion hok
  · intro hnc
    cases hf : (requestedTasks catalog req).find?
        (fun t => !t.depends_on.all
          (fun d => ((requestedTasks catalog req).map (·.id)).contains d)) with
    | none =>
      exfalso
      apply hnc
      intro t ht d hd
      have h1 := List.find?_eq_none.mp hf t ht
      rw [Bool.not_eq_true, Bool.not_eq_false', List.all_eq_true] at h1
      simpa using h1 d hd
    | some t0 =>
      have ht0 : t0 ∈ requestedTasks catalog req := List.mem_of_find?_eq_some hf
      have hp := List.find?_some hf
      rw [Bool.not_eq_true', List.all_eq_false] at hp
      obtain ⟨d0, hd0, hd0f⟩ := hp
      have hmiss : d0 ∉ (requestedTasks catalog req).map (·.id) := by
        simpa using hd0f
      have hflt : t0.depends_on.filter
          (fun d => !((requestedTasks catalog req).map (·.id)).contains d) ≠ [] := by
        intro hnil
        have : d0 ∈ t0.depends_on.filter
            (fun d => !((requestedTasks catalog req).map (·.id)).contains d) :=
          List.mem_filter.mpr ⟨hd0, by simpa using hmiss⟩
        rw [hnil] at this
        simp at this
      set dep := (t0.depends_on.filter
          (fun d => !((requestedTasks catalog req).map (·.id)).contains d)).headD ""
        with hdep
      have hdepmem := headD_mem hflt ""
      rw [← hdep] at hdepmem
      have hdep2 := List.mem_filter.mp hdepmem
      refine ⟨t0.id, dep, ?_, t0, ht0, rfl, hdep2.1, ?_⟩
      · simp only [orderTasks, hf]
      · simpa [requestedIds] using hdep2.2

lemma transGen_rank_lt {α : Type} {r : α → α → Prop} {f : α → ℕ}
    (h : ∀ x y, r x y → f y < f x) :
    ∀ {x y}, Relation.TransGen r x y → f y < f x := by
  intro x y hxy
  induction hxy with
  | single h1 => exact h _ _ h1
  | tail _ h2 ih => exact lt_trans (h _ _ h2) ih

lemma acyclic_of_rank {tasks : List TaskDefinition} (f : String → ℕ)
    (h : ∀ x y, depEdge tasks x y → f y < f x) : ¬ HasDepCycle tasks := by
  rintro ⟨a, ha⟩
  exact lt_irrefl (f a) (transGen_rank_lt h ha)

/-- Closed witness for `ordering_acyclic_correct` on the chain
a ← b ← c (requested in full). -/
theorem ordering_acyclic_correct_witness :
    ∃ order, orderTasks [taskA, taskB, taskC] none = .ok order ∧
      order.Perm (requestedIds [taskA, taskB, taskC] none) ∧
      (∀ t ∈ requestedTasks [taskA, taskB, taskC] none, ∀ d ∈ t.depends_on,
          d ∈ order ∧ order.indexOf d < order.indexOf t.id) ∧
      order.filter (noDeps (requestedTasks [taskA, taskB, taskC] none))
        = (requestedIds [taskA, taskB, taskC] none).filter
            (noDeps (requestedTasks [taskA, taskB, taskC] none)) :=
  ordering_acyclic_correct [taskA, taskB, taskC] none (by decide)
    (by unfold DepsClosed; decide)
    (acyclic_of_rank (fun s => if s = "b" then 1 else if s = "c" then 2 else 0) (by
      rintro x y ⟨t, ht, rfl, hdep⟩
      fin_cases ht
      · simp [taskA] at hdep
      · simp [taskB] at hdep
        subst hdep
        decide
      · simp [taskC] at hdep
        subst hdep
        decide))

/-- Closed witness for `ordering_failure_modes` on the two-task cycle
x ⇄ y. -/
theorem ordering_failure_modes_witness :
    ∃ members, orderTasks [taskLoopX, taskLoopY] none = .error (.cycle members) ∧
      (∀ a, OnCycle (requestedTasks [taskLoopX, taskLoopY] none) a → a ∈ members) ∧
      ∀ order, orderTasks [taskLoopX, taskLoopY] none ≠ .ok order :=
  (ordering_failure_modes [taskLoopX, taskLoopY] none (by decide)).1
    (by unfold DepsClosed; decide)
    ⟨"x", Relation.TransGen.tail
      (Relation.TransGen.single
        ⟨taskLoopX, by simp [requestedTasks], rfl, by decide⟩)
      ⟨taskLoopY, by simp [requestedTasks], rfl, by decide⟩⟩

/-! ## Conversation Store (spec sections 3, 4.2)

The backend module `memory_manager.py` is not in the source tree; the store
and its four operations are modelled from the specification. -/

/-- Modelled from the spec: one message of a `ConversationHistory`
(role, content; spec section 3). -/
structure Message where
  role : String
  content : String
deriving DecidableEq, Repr

/-- A (task identifier, model identifier) pair scoping one history. -/
abbrev ConvKey := String × String

/-- Modelled from the spec: the Conversation Store of `memory_manager.py` —
one isolated message history per (task, model) pair (spec section 4.2),
kept as an association list. -/
def ConvStore := List (ConvKey × List Message)

/-- History of a (task, model) pair, when present. -/
def lookupHistory : ConvStore → ConvKey → Option (List Message)
  | [], _ => none
  | (k, h) :: rest, key => if k = key then some h else lookupHistory rest key

/-- Modelled from the spec: `create(task, model)` — a fresh empty history,
failing when one already exists for the pair within the run. -/
def createHistory (s : ConvStore) (k : ConvKey) : Except String ConvStore :=
  match lookupHistory s k with
  | some _ => .error "conversation already exists for this (task, model) pair"
  | none => .ok ((k, []) :: s)

/-- Modelled from the spec: `append(history, role, content)` — appends one
message to the pair's history, preserving order; other pairs untouched. -/
def appendMessage : ConvStore → ConvKey → Message → ConvStore
  | [], _, _ => []
  | (k, h) :: rest, key, m =>
      if k = key then (k, h ++ [m]) :: rest
      else (k, h) :: appendMessage rest key m

/-- Modelled from the spec: `serialize(history)` — a plain ordered structure
suitable for persistence. -/
def serializeHistory (s : ConvStore) (k : ConvKey) : Option (List (String × String)) :=
  (lookupHistory s k).map (fun h => h.map (fun m => (m.role, m.content)))

/-- Modelled from the spec: `restore(serialized)` — the inverse of
`serialize`, used only for post-hoc inspection. -/
def restoreHistory (l : List (String × String)) : List Message :=
  l.map (fun p => ⟨p.1, p.2⟩)

example :
    lookupHistory
      (appendMessage [(("c1_2", "m1"), []), (("c1_3", "m1"), [])]
        ("c1_2", "m1") ⟨"user", "prompt"⟩)
      ("c1_3", "m1") = some [] := rfl

lemma lookup_append_self (k : ConvKey) (m : Message) :
    ∀ (s : ConvStore) (h : List Message), lookupHistory s k = some h →
      lookupHistory (appendMessage s k m) k = some (h ++ [m]) := by
  intro s
  induction s with
  | nil => intro h hl; simp [lookupHistory] at hl
  | cons e rest ih =>
    intro h hl
    obtain ⟨ke, he⟩ := e
    by_cases hk : ke = k
    · subst hk
      simp only [lookupHistory, if_pos rfl] at hl
      cases hl
      simp [appendMessage, lookupHistory]
    · simp only [lookupHistory, hk, if_false] at hl
      simp [appendMessage, lookupHistory, hk, ih h hl]

lemma restore_serialize_self (h : List Message) :
    restoreHistory (h.map (fun m => (m.role, m.content))) = h := by
  induction h with
  | nil => rfl
  | cons a t ih => simpa [restoreHistory] using ih

/-- C4: isolation of the Conversation Store — `create`, `append`, `serialize`
and `restore` never read or write the messages of a (task, model) pair other
than the one they were given: appending to pair `k` is invisible to any other
pair `k2`, creating `k` leaves `k2` unchanged, the appended message is
observable exactly at `k`, and `restore` inverts `serialize` on the pair's
own history. -/
theorem conversation_isolation (s : ConvStore) (k k2 : ConvKey) (m : Message)
    (hne : k ≠ k2) :
    lookupHistory (appendMessage s k m) k2 = lookupHistory s k2 ∧
    (∀ s2, createHistory s k = .ok s2 →
      lookupHistory s2 k2 = lookupHistory s k2) ∧
    serializeHistory (appendMessage s k m) k2 = serializeHistory s k2 ∧
    (∀ h, lookupHistory s k = some h →
      lookupHistory (appendMessage s k m) k = some (h ++ [m])) ∧
    (∀ h l, lookupHistory s k = some h → serializeHistory s k = some l →
      restoreHistory l = h) := by
  have happend : lookupHistory (appendMessage s k m) k2 = lookupHistory s k2 := by
    induction s with
    | nil => rfl
    | cons e rest ih =>
      obtain ⟨ke, he⟩ := e
      by_cases hk : ke = k
      · subst hk
        simp [appendMessage, lookupHistory, hne]
      · simp only [appendMessage, lookupHistory, hk, if_false]
        by_cases hk2 : ke = k2
        · simp [lookupHistory, hk2]
        · simp [lookupHistory, hk2, ih]
  refine ⟨happend, ?_, ?_, ?_, ?_⟩
  · intro s2 hs2
    unfold createHistory at hs2
    cases hl : lookupHistory s k with
    | some h => rw [hl] at hs2; exact Except.noConfusion hs2
    | none =>
      rw [hl] at hs2
      cases hs2
      simp [lookupHistory, hne]
  · simp [serializeHistory, happend]
  · intro h hl
    exact lookup_append_self k m s h hl
  · intro h l hl hser
    unfold serializeHistory at hser
    rw [hl] at hser
    cases hser
    exact restore_serialize_self h

/-- Closed witness for `conversation_isolation` on a two-pair store. -/
theorem conversation_isolation_witness :
    lookupHistory
        (appendMessage [(("c1_2", "m1"), []), (("c1_3", "m1"), [])]
          ("c1_2", "m1") ⟨"user", "hello"⟩)
        ("c1_3", "m1")
      = lookupHistory [(("c1_2", "m1"), []), (("c1_3", "m1"), [])] ("c1_3", "m1") :=
  (conversation_isolation [(("c1_2", "m1"), []), (("c1_3", "m1"), [])]
    ("c1_2", "m1") ("c1_3", "m1") ⟨"user", "hello"⟩ (by decide)).1

/-! ## Retry Loop state machine (spec section 4.4)

The backend module `orchestrator.py` driving the
PROMPTING → EXTRACTING → EXECUTING → {SUCCEEDED | FEEDBACK | EXHAUSTED |
FATAL} loop is not in the source tree; the machine is modelled from the
specification. -/

/-- Modelled from the spec: the states of the Retry Loop (spec section 4.4). -/
inductive Phase where
  | prompting | extracting | executing | feedback | succeeded | exhausted | fatal
deriving DecidableEq, Repr

/-- Modelled from the spec: one provisioning stage's outcome
(spec section 3). -/
structure StageResult where
  stage : String
  success : Bool
  output : String
deriving DecidableEq, Repr

/-- Modelled from the spec: the outcome of one staged provisioning workflow
(init → validate → plan → apply in strict order, stopping at the first
failing stage). -/
inductive ExecOutcome where
  | applied (results : List StageResult)
  | failedStage (results : List StageResult) (failingOutput : String)
deriving DecidableEq, Repr

/-- Modelled from the spec: the external collaborators of one attempt — the
model call (`none` means the transport retry/backoff policy was exhausted),
the Code Extractor's payload, and the Provisioning Adapter. -/
structure Env where
  modelCall : List Message → Option String
  extractCode : String → Option String
  execute : String → ExecOutcome

/-- Modelled from the spec: `AttemptState` (spec section 3) together with the
data the loop threads between states. -/
structure LoopState where
  phase : Phase
  iteration : ℕ
  history : List Message
  lastResponse : String
  code : String
  stageResults : List StageResult
  applySucceeded : Bool
deriving DecidableEq, Repr

/-- The synthesized feedback message when no code payload was produced. -/
def noCodeFeedback : String := "no executable code found, please provide a code block"

/-- Feedback output is truncated to a bounded size (spec section 4.4). -/
def truncateOutput (bound : ℕ) (s : String) : String := s.take bound

def feedbackBound : ℕ := 4000

/-- Modelled from the spec: one transition of the Retry Loop state machine
(spec section 4.4).  `PROMPTING` calls the model and appends the response to
the history, failing fatally on transport exhaustion; `EXTRACTING` runs the
Code Extractor, synthesizing feedback when no payload is produced;
`EXECUTING` invokes the staged provisioning workflow, succeeding after apply
or recording the failing stage and its truncated output as feedback;
`FEEDBACK` increments the iteration counter and transitions to `EXHAUSTED`
once it reaches the configured maximum, else back to `PROMPTING`.  Terminal
states are fixed points. -/
def step (env : Env) (maxIterations : ℕ) (s : LoopState) : LoopState :=
  match s.phase with
  | .prompting =>
      match env.modelCall s.history with
      | none => { s with phase := .fatal }
      | some resp =>
          { s with phase := .extracting, lastResponse := resp,
                   history := s.history ++ [⟨"assistant", resp⟩] }
  | .extracting =>
      match env.extractCode s.lastResponse with
      | none =>
          { s with phase := .feedback,
                   history := s.history ++ [⟨"user", noCodeFeedback⟩] }
      | some payload => { s with phase := .executing, code := payload }
  | .executing =>
      match env.execute s.code with
      | .applied results =>
          { s with phase := .succeeded, stageResults := s.stageResults ++ results,
                   applySucceeded := true }
      | .failedStage results out =>
          { s with phase := .feedback, stageResults := s.stageResults ++ results,
                   history := s.history ++ [⟨"user", truncateOutput feedbackBound out⟩] }
  | .feedback =>
      if s.iteration + 1 ≥ maxIterations then
        { s with phase := .exhausted, iteration := s.iteration + 1 }
      else { s with phase := .prompting, iteration := s.iteration + 1 }
  | .succeeded => s
  | .exhausted => s
  | .fatal => s

def isTerminal (s : LoopState) : Bool :=
  match s.phase with
  | .succeeded => true
  | .exhausted => true
  | .fatal => true
  | _ => false

/-- The fresh state of one attempt: empty counters, history seeded with the
platform context and the task prompt. -/
def initState (task : TaskDefinition) (ctx : String) : LoopState :=
  { phase := .prompting, iteration := 0,
    history := [⟨"system", ctx⟩, ⟨"user", task.prompt⟩],
    lastResponse := "", code := "", stageResults := [], applySucceeded := false }

/-- Fuel-bounded iteration of the state machine, stopping at terminal
states. -/
def runSteps (env : Env) (maxIterations : ℕ) : ℕ → LoopState → LoopState
  | 0, s => s
  | n + 1, s =>
      if isTerminal s then s else runSteps env maxIterations n (step env maxIterations s)

/-- Each iteration takes at most four transitions, so this fuel suffices. -/
def loopFuel (maxIterations : ℕ) : ℕ := 4 * maxIterations + 4

/-- Modelled from the spec: one full attempt of the Retry Loop, from the
seeded initial state to a terminal state. -/
def runAttempt (env : Env) (maxIterations : ℕ) (task : TaskDefinition)
    (ctx : String) : LoopState :=
  runSteps env maxIterations (loopFuel maxIterations) (initState task ctx)

def phaseRank : Phase → ℕ
  | .prompting => 3
  | .extracting => 2
  | .executing => 1
  | _ => 0

def loopMeasure (maxIterations : ℕ) (s : LoopState) : ℕ :=
  4 * (maxIterations - s.iteration) + phaseRank s.phase

/-- The loop invariant: the counter never exceeds the maximum and is strictly
below it while the machine is still looping. -/
def LoopInv (maxIterations : ℕ) (s : LoopState) : Prop :=
  s.iteration ≤ maxIterations ∧ (isTerminal s = false → s.iteration < maxIterations)

lemma step_prompting_none {env : Env} {m : ℕ} {s : LoopState}
    (h : s.phase = .prompting) (hm : env.modelCall s.history = none) :
    step env m s = { s with phase := .fatal } := by
  unfold step
  rw [h, hm]

lemma step_prompting_some {env : Env} {m : ℕ} {s : LoopState} {resp : String}
    (h : s.phase = .prompting) (hm : env.modelCall s.history = some resp) :
    step env m s =
      { s with
        phase := .extracting
        lastResponse := resp
        history := s.history ++ [⟨"assistant", resp⟩] } := by
  unfold step
  rw [h, hm]

lemma step_extracting_none {env : Env} {m : ℕ} {s : LoopState}
    (h : s.phase = .extracting) (hm : env.extractCode s.lastResponse = none) :
    step env m s =
      { s with
        phase := .feedback
        history := s.history ++ [⟨"user", noCodeFeedback⟩] } := by
  unfold step
  rw [h, hm]

lemma step_extracting_some {env : Env} {m : ℕ} {s : LoopState} {payload : String}
    (h : s.phase = .extracting) (hm : env.extractCode s.lastResponse = some payload) :
    step env m s = { s with phase := .executing, code := payload } := by
  unfold step
  rw [h, hm]

lemma step_executing_applied {env : Env} {m : ℕ} {s : LoopState}
    {results : List StageResult}
    (h : s.phase = .executing) (hm : env.execute s.code = .applied results) :
    step env m s =
      { s with
        phase := .succeeded
        stageResults := s.stageResults ++ results
        applySucceeded := true } := by
  unfold step
  rw [h, hm]

lemma step_executing_failed {env : Env} {m : ℕ} {s : LoopState}
    {results : List StageResult} {out : String}
    (h : s.phase = .executing) (hm : env.execute s.code = .failedStage results out) :
    step env m s =
      { s with
        phase := .feedback
        stageResults := s.stageResults ++ results
        history := s.history ++ [⟨"user", truncateOutput feedbackBound out⟩] } := by
  unfold step
  rw [h, hm]

lemma step_feedback_exhaust {env : Env} {m : ℕ} {s : LoopState}
    (h : s.phase = .feedback) (hge : m ≤ s.iteration + 1) :
    step env m s = { s with phase := .exhausted, iteration := s.iteration + 1 } := by
  unfold step
  rw [h, if_pos (by omega : s.iteration + 1 ≥ m)]

lemma step_feedback_continue {env : Env} {m : ℕ} {s : LoopState}
    (h : s.phase = .feedback) (hlt : s.iteration + 1 < m) :
    step env m s = { s with phase := .prompting, iteration := s.iteration + 1 } := by
  unfold step
  rw [h, if_neg (by omega : ¬ s.iteration + 1 ≥ m)]

lemma step_of_terminal {env : Env} {maxIterations : ℕ} {s : LoopState}
    (h : isTerminal s = true) : step env maxIterations s = s := by
  unfold isTerminal at h
  unfold step
  cases hph : s.phase <;> rw [hph] at h <;> simp_all

lemma runSteps_of_terminal {env : Env} {maxIterations : ℕ} {s : LoopState}
    (h : isTerminal s = true) : ∀ n, runSteps env maxIterations n s = s := by
  intro n
  cases n with
  | zero => rfl
  | succ n => simp [runSteps, h]

lemma loopInv_step {env : Env} {maxIterations : ℕ} {s : LoopState}
    (hinv : LoopInv maxIterations s) :
    LoopInv maxIterations (step env maxIterations s) := by
  obtain ⟨hle, hlt⟩ := hinv
  cases hph : s.phase
  case prompting =>
    have hit : s.iteration < maxIterations := hlt (by simp [isTerminal, hph])
    cases hm : env.modelCall s.history
    · rw [step_prompting_none hph hm]
      exact ⟨Nat.le_of_lt hit, fun _ => hit⟩
    · rw [step_prompting_some hph hm]
      exact ⟨Nat.le_of_lt hit, fun _ => hit⟩
  case extracting =>
    have hit : s.iteration < maxIterations := hlt (by simp [isTerminal, hph])
    cases hm : env.extractCode s.lastResponse
    · rw [step_extracting_none hph hm]
      exact ⟨Nat.le_of_lt hit, fun _ => hit⟩
    · rw [step_extracting_some hph hm]
      exact ⟨Nat.le_of_lt hit, fun _ => hit⟩
  case executing =>
    have hit : s.iteration < maxIterations := hlt (by simp [isTerminal, hph])
    cases hm : env.execute s.code
    · rw [step_executing_applied hph hm]
      exact ⟨Nat.le_of_lt hit, fun _ => hit⟩
    · rw [step_executing_failed hph hm]
      exact ⟨Nat.le_of_lt hit, fun _ => hit⟩
  case feedback =>
    have hit : s.iteration < maxIterations := hlt (by simp [isTerminal, hph])
    by_cases hge : maxIterations ≤ s.iteration + 1
    · rw [step_feedback_exhaust hph hge]
      refine ⟨?_, fun hc => by simp [isTerminal] at hc⟩
      show s.iteration + 1 ≤ maxIterations
      omega
    · rw [step_feedback_continue hph (by omega)]
      refine ⟨?_, fun _ => ?_⟩
      · show s.iteration + 1 ≤ maxIterations
        omega
      · show s.iteration + 1 < maxIterations
        omega
  case succeeded => rw [step_of_terminal (by simp [isTerminal, hph])]; exact ⟨hle, hlt⟩
  case exhausted => rw [step_of_terminal (by simp [isTerminal, hph])]; exact ⟨hle, hlt⟩
  case fatal => rw [step_of_terminal (by simp [isTerminal, hph])]; exact ⟨hle, hlt⟩

lemma loopMeasure_decrease {env : Env} {maxIterations : ℕ} {s : LoopState}
    (hnt : isTerminal s = false) (hinv : LoopInv maxIterations s) :
    isTerminal (step env maxIterations s) = true ∨
      loopMeasure maxIterations (step env maxIterations s)
        < loopMeasure maxIterations s := by
  obtain ⟨hle, hlt⟩ := hinv
  have hit : s.iteration < maxIterations := hlt hnt
  cases hph : s.phase
  case prompting =>
    cases hm : env.modelCall s.history
    · exact Or.inl (by rw [step_prompting_none hph hm]; simp [isTerminal])
    · refine Or.inr ?_
      rw [step_prompting_some hph hm]
      simp [loopMeasure, phaseRank, hph]
  case extracting =>
    cases hm : env.extractCode s.lastResponse
    · refine Or.inr ?_
      rw [step_extracting_none hph hm]
      simp [loopMeasure, phaseRank, hph]
    · refine Or.inr ?_
      rw [step_extracting_some hph hm]
      simp [loopMeasure, phaseRank, hph]
  case executing =>
    cases hm : env.execute s.code
    · exact Or.inl (by rw [step_executing_applied hph hm]; simp [isTerminal])
    · refine Or.inr ?_
      rw [step_executing_failed hph hm]
      simp [loopMeasure, phaseRank, hph]
  case feedback =>
    by_cases hge : maxIterations ≤ s.iteration + 1
    · exact Or.inl (by rw [step_feedback_exhaust hph hge]; simp [isTerminal])
    · refine Or.inr ?_
      rw [step_feedback_continue hph (by omega)]
      simp only [loopMeasure, phaseRank, hph]
      omega
  case succeeded => simp [isTerminal, hph] at hnt
  case exhausted => simp [isTerminal, hph] at hnt
  case fatal => simp [isTerminal, hph] at hnt

lemma terminal_of_fuel (env : Env) (maxIterations : ℕ) :
    ∀ (n : ℕ) (s : LoopState), LoopInv maxIterations s →
      loopMeasure maxIterations s < n →
      isTerminal (runSteps env maxIterations n s) = true := by
  intro n
  induction n with
  | zero => intro s _ hm; omega
  | succ n ih =>
    intro s hinv hm
    cases ht : isTerminal s with
    | true => rw [runSteps, if_pos ht]; exact ht
    | false =>
      rw [runSteps, if_neg (by simp [ht])]
      rcases loopMeasure_decrease ht hinv with hterm | hdec
      · rw [runSteps_of_terminal hterm]
        exact hterm
      · exact ih (step env maxIterations s) (loopInv_step hinv) (by omega)

lemma loopInv_runSteps {env : Env} {maxIterations : ℕ} :
    ∀ (n : ℕ) (s : LoopState), LoopInv maxIterations s →
      LoopInv maxIterations (runSteps env maxIterations n s) := by
  intro n
  induction n with
  | zero => intro s h; exact h
  | succ n ih =>
    intro s h
    rw [runSteps]
    by_cases ht : isTerminal s = true
    · rw [if_pos ht]; exact h
    · rw [if_neg ht]
      exact ih _ (loopInv_step h)

lemma loopInv_init (task : TaskDefinition) (ctx : String) {maxIterations : ℕ}
    (hmax : 1 ≤ maxIterations) : LoopInv maxIterations (initState task ctx) :=
  ⟨by simp [initState], fun _ => by simp only [initState]; omega⟩

lemma runAttempt_terminal (env : Env) {maxIterations : ℕ} (task : TaskDefinition)
    (ctx : String) (hmax : 1 ≤ maxIterations) :
    isTerminal (runAttempt env maxIterations task ctx) = true := by
  apply terminal_of_fuel env maxIterations (loopFuel maxIterations) _
    (loopInv_init task ctx hmax)
  simp only [loopMeasure, loopFuel, initState, phaseRank]
  omega

lemma isTerminal_phases {s : LoopState} (h : isTerminal s = true) :
    s.phase = .succeeded ∨ s.phase = .exhausted ∨ s.phase = .fatal := by
  unfold isTerminal at h
  cases hph : s.phase <;> rw [hph] at h <;> simp_all

lemma applySucceeded_step {env : Env} {maxIterations : ℕ} {s : LoopState}
    (h : s.phase = .succeeded → s.applySucceeded = true) :
    (step env maxIterations s).phase = .succeeded →
      (step env maxIterations s).applySucceeded = true := by
  cases hph : s.phase
  case prompting =>
    cases hm : env.modelCall s.history
    · rw [step_prompting_none hph hm]; simp
    · rw [step_prompting_some hph hm]; simp
  case extracting =>
    cases hm : env.extractCode s.lastResponse
    · rw [step_extracting_none hph hm]; simp
    · rw [step_extracting_some hph hm]; simp
  case executing =>
    cases hm : env.execute s.code
    · rw [step_executing_applied hph hm]; simp
    · rw [step_executing_failed hph hm]; simp
  case feedback =>
    by_cases hge : maxIterations ≤ s.iteration + 1
    · rw [step_feedback_exhaust hph hge]; simp
    · rw [step_feedback_continue hph (by omega)]; simp
  case succeeded =>
    rw [step_of_terminal (by simp [isTerminal, hph])]
    intro _
    exact h hph
  case exhausted =>
    rw [step_of_terminal (by simp [isTerminal, hph])]
    intro hc
    simp [hph] at hc
  case fatal =>
    rw [step_of_terminal (by simp [isTerminal, hph])]
    intro hc
    simp [hph] at hc

lemma applySucceeded_runSteps {env : Env} {maxIterations : ℕ} :
    ∀ (n : ℕ) (s : LoopState), (s.phase = .succeeded → s.applySucceeded = true) →
      (runSteps env maxIterations n s).phase = .succeeded →
      (runSteps env maxIterations n s).applySucceeded = true := by
  intro n
  induction n with
  | zero => intro s h; exact h
  | succ n ih =>
    intro s h
    rw [runSteps]
    by_cases ht : isTerminal s = true
    · rw [if_pos ht]; exact h
    · rw [if_neg ht]
      exact ih _ (applySucceeded_step h)

lemma runAttempt_applySucceeded (env : Env) {maxIterations : ℕ}
    (task : TaskDefinition) (ctx : String) :
    (runAttempt env maxIterations task ctx).phase = .succeeded →
    (runAttempt env maxIterations task ctx).applySucceeded = true :=
  applySucceeded_runSteps (loopFuel maxIterations) (initState task ctx)
    (by simp [initState])

/-- C3: for every environment and configured maximum (at least 1), the Retry
Loop always reaches one of the terminal states SUCCEEDED, EXHAUSTED or FATAL
within bounded fuel (never looping forever), the iteration counter never
exceeds the maximum at any point of the run, and whenever the counter reaches
the maximum in the FEEDBACK state the machine transitions to EXHAUSTED. -/
theorem retryLoop_termination (env : Env) (maxIterations : ℕ)
    (task : TaskDefinition) (ctx : String) (hmax : 1 ≤ maxIterations) :
    isTerminal (runAttempt env maxIterations task ctx) = true ∧
    ((runAttempt env maxIterations task ctx).phase = .succeeded ∨
      (runAttempt env maxIterations task ctx).phase = .exhausted ∨
      (runAttempt env maxIterations task ctx).phase = .fatal) ∧
    (∀ n : ℕ,
      (runSteps env maxIterations n (initState task ctx)).iteration ≤ maxIterations) ∧
    (∀ s : LoopState, s.phase = .feedback → maxIterations ≤ s.iteration + 1 →
      (step env maxIterations s).phase = .exhausted) := by
  refine ⟨runAttempt_terminal env task ctx hmax,
    isTerminal_phases (runAttempt_terminal env task ctx hmax), ?_, ?_⟩
  · intro n
    exact (loopInv_runSteps n (initState task ctx) (loopInv_init task ctx hmax)).1
  · intro s hph hge
    unfold step
    rw [hph]
    rw [if_pos hge]

/-- Closed witness for `retryLoop_termination`: a model that produces code
whose apply fails, with a budget of two iterations. -/
theorem retryLoop_termination_witness :
    isTerminal (runAttempt
      ⟨fun _ => some "resp", fun _ => some "code",
        fun _ => .failedStage [⟨"validate", false, "err"⟩] "err"⟩
      2 taskA "ctx") = true :=
  (retryLoop_termination
    ⟨fun _ => some "resp", fun _ => some "code",
      fun _ => .failedStage [⟨"validate", false, "err"⟩] "err"⟩
    2 taskA "ctx" (by omega)).1

/-! ## Dataset Recorder and attempt completion (spec sections 4.4, 4.6)

The backend modules `dataset_generator.py` and the attempt-completion part of
`orchestrator.py` are not in the source tree; they are modelled from the
specification. -/

/-- Modelled from the spec: `DatasetEntry` (spec section 3) — the durable
record of one completed attempt: task/model identifiers, outcome, iteration
metrics, the full StageResult sequence and the final conversation history. -/
structure DatasetEntry where
  taskId : String
  modelId : String
  succeeded : Bool
  iterations : ℕ
  stageResults : List StageResult
  conversation : List Message
deriving DecidableEq, Repr

/-- Modelled from the spec: the Dataset Recorder — one immutable entry from
one terminal attempt state (spec section 4.6). -/
def recordAttempt (task : TaskDefinition) (model : String)
    (final : LoopState) : DatasetEntry :=
  { taskId := task.id
    modelId := model
    succeeded := decide (final.phase = Phase.succeeded)
    iterations := final.iteration
    stageResults := final.stageResults
    conversation := final.history }

/-- The observable effects of completing one attempt: the terminal loop
state, the Dataset Recorder invocations, and the number of destroy-stage
invocations against the Provisioning Adapter. -/
structure AttemptReport where
  final : LoopState
  entries : List DatasetEntry
  destroyCalls : ℕ
deriving DecidableEq, Repr

/-- Modelled from the spec: completing one attempt (spec section 4.4, last
bullet) — run the Retry Loop to its terminal state, invoke the Dataset
Recorder exactly once with that state, and invoke the destroy stage exactly
when the attempt SUCCEEDED and the task is configured for cleanup. -/
def runOneAttempt (env : Env) (maxIterations : ℕ) (task : TaskDefinition)
    (model : String) (ctx : String) : AttemptReport :=
  let final := runAttempt env maxIterations task ctx
  { final := final
    entries := [recordAttempt task model final]
    destroyCalls :=
      if final.phase = Phase.succeeded ∧ task.cleanup = true then 1 else 0 }

/-- C5: the destroy stage is invoked exactly once if and only if the attempt
terminated SUCCEEDED and cleanup is configured for its task; it is never
invoked more than once; and an attempt that never reached a successful apply
(`applySucceeded = false`) never triggers destroy. -/
theorem destroy_iff_succeeded_and_cleanup (env : Env) (maxIterations : ℕ)
    (task : TaskDefinition) (model : String) (ctx : String)
    (hmax : 1 ≤ maxIterations) :
    ((runOneAttempt env maxIterations task model ctx).destroyCalls = 1 ↔
      (runAttempt env maxIterations task ctx).phase = Phase.succeeded ∧
        task.cleanup = true) ∧
    ((runOneAttempt env maxIterations task model ctx).destroyCalls = 0 ∨
      (runOneAttempt env maxIterations task model ctx).destroyCalls = 1) ∧
    ((runAttempt env maxIterations task ctx).applySucceeded = false →
      (runOneAttempt env maxIterations task model ctx).destroyCalls = 0) := by
  refine ⟨?_, ?_, ?_⟩
  · unfold runOneAttempt
    by_cases hc : (runAttempt env maxIterations task ctx).phase = Phase.succeeded ∧
        task.cleanup = true
    · simp [hc]
    · simp [hc]
  · unfold runOneAttempt
    by_cases hc : (runAttempt env maxIterations task ctx).phase = Phase.succeeded ∧
        task.cleanup = true
    · simp [hc]
    · simp [hc]
  · intro hna
    unfold runOneAttempt
    have hns : ¬ ((runAttempt env maxIterations task ctx).phase = Phase.succeeded ∧
        task.cleanup = true) := by
      rintro ⟨hs, -⟩
      rw [runAttempt_applySucceeded env task ctx hs] at hna
      exact Bool.noConfusion hna
    simp [hns]

/-- Closed witness for `destroy_iff_succeeded_and_cleanup`: an environment
whose apply always fails, so destroy is never invoked. -/
theorem destroy_iff_witness :
    (runOneAttempt
        ⟨fun _ => some "resp", fun _ => some "code",
          fun _ => .failedStage [⟨"apply", false, "boom"⟩] "boom"⟩
        2 taskA "m1" "ctx").destroyCalls = 0 ∨
    (runOneAttempt
        ⟨fun _ => some "resp", fun _ => some "code",
          fun _ => .failedStage [⟨"apply", false, "boom"⟩] "boom"⟩
        2 taskA "m1" "ctx").destroyCalls = 1 :=
  (destroy_iff_succeeded_and_cleanup
    ⟨fun _ => some "resp", fun _ => some "code",
      fun _ => .failedStage [⟨"apply", false, "boom"⟩] "boom"⟩
    2 taskA "m1" "ctx" (by omega)).2.1

/-- C7: every attempt reaches a terminal state and invokes the Dataset
Recorder exactly once, producing exactly one DatasetEntry built from the
terminal state; failed attempts (EXHAUSTED, FATAL) are recorded through the
same single invocation as successful ones and are never dropped. -/
theorem recorder_exactly_once (env : Env) (maxIterations : ℕ)
    (task : TaskDefinition) (model : String) (ctx : String)
    (hmax : 1 ≤ maxIterations) :
    (runOneAttempt env maxIterations task model ctx).entries.length = 1 ∧
    (runOneAttempt env maxIterations task model ctx).entries
      = [recordAttempt task model (runAttempt env maxIterations task ctx)] ∧
    isTerminal (runAttempt env maxIterations task ctx) = true ∧
    (∀ e ∈ (runOneAttempt env maxIterations task model ctx).entries,
      e.succeeded = decide ((runAttempt env maxIterations task ctx).phase
        = Phase.succeeded)) := by
  refine ⟨rfl, rfl, runAttempt_terminal env task ctx hmax, ?_⟩
  intro e he
  simp only [runOneAttempt, List.mem_singleton] at he
  subst he
  rfl

/-- Closed witness for `recorder_exactly_once`: a fatally failing model call
still produces exactly one entry. -/
theorem recorder_exactly_once_witness :
    (runOneAttempt ⟨fun _ => none, fun _ => none, fun _ => .applied []⟩
      1 taskA "m1" "ctx").entries.length = 1 :=
  (recorder_exactly_once ⟨fun _ => none, fun _ => none, fun _ => .applied []⟩
    1 taskA "m1" "ctx" (by omega)).1

/-! ## Run Coordinator and cooperative cancellation (spec section 4.5)

The coordinator part of `orchestrator.py` / `automation_service.py` is not in
the source tree; it is modelled from the specification. -/

/-- Modelled from the spec: the status of a RunRecord (spec section 3). -/
inductive RunStatus where
  | running | completed | failed | cancelled
deriving DecidableEq, Repr

/-- One attempt's record inside a run. -/
structure AttemptRecord where
  model : String
  taskId : String
  report : AttemptReport
deriving DecidableEq, Repr

/-- Modelled from the spec: the RunRecord produced by one invocation of the
Run Coordinator (spec section 3): per-attempt outcomes and terminal status. -/
structure RunRecord where
  records : List AttemptRecord
  status : RunStatus
deriving DecidableEq, Repr

/-- Modelled from the spec: cooperative cancellation — `cancelDuring = some c`
means the cancellation request arrives while the attempt with 0-based index
`c` is executing; since the request is only checked at the boundary between
attempts, it is visible at boundary `i` exactly when `c < i`. -/
def cancelArrived (cancelDuring : Option ℕ) (i : ℕ) : Bool :=
  match cancelDuring with
  | none => false
  | some c => decide (c < i)

def mkAttemptRecord (env : Env) (maxIterations : ℕ) (ctx : String)
    (p : String × TaskDefinition) : AttemptRecord :=
  ⟨p.1, p.2.id, runOneAttempt env maxIterations p.2 p.1 ctx⟩

/-- Modelled from the spec: the Run Coordinator's strictly sequential attempt
loop (spec section 4.5).  Before each attempt the cancellation flag is
checked; once it is set, the remaining attempts are skipped.  The boolean
result records whether the cancellation request had arrived by the end of
the run. -/
def runPairs (env : Env) (maxIterations : ℕ) (ctx : String)
    (cancelDuring : Option ℕ) :
    List (String × TaskDefinition) → ℕ → List AttemptRecord × Bool
  | [], i => ([], cancelArrived cancelDuring i)
  | p :: rest, i =>
      if cancelArrived cancelDuring i then ([], true)
      else
        ((mkAttemptRecord env maxIterations ctx p)
            :: (runPairs env maxIterations ctx cancelDuring rest (i + 1)).1,
          (runPairs env maxIterations ctx cancelDuring rest (i + 1)).2)

/-- Modelled from the spec: one invocation of the Run Coordinator over the
(model, ordered-task) attempts, with cooperative cancellation. -/
def runCoordinator (env : Env) (maxIterations : ℕ) (ctx : String)
    (pairs : List (String × TaskDefinition)) (cancelDuring : Option ℕ) :
    RunRecord :=
  { records := (runPairs env maxIterations ctx cancelDuring pairs 0).1
    status :=
      if (runPairs env maxIterations ctx cancelDuring pairs 0).2
      then .cancelled else .completed }

lemma runPairs_none_eq (env : Env) (maxIterations : ℕ) (ctx : String) :
    ∀ (ps : List (String × TaskDefinition)) (i : ℕ),
      runPairs env maxIterations ctx none ps i
        = (ps.map (mkAttemptRecord env maxIterations ctx), false) := by
  intro ps
  induction ps with
  | nil => intro i; simp [runPairs, cancelArrived]
  | cons p rest ih => intro i; simp [runPairs, cancelArrived, ih]

lemma runPairs_some_eq (env : Env) (maxIterations : ℕ) (ctx : String) (c : ℕ) :
    ∀ (ps : List (String × TaskDefinition)) (i : ℕ),
      runPairs env maxIterations ctx (some c) ps i
        = ((ps.take (c + 1 - i)).map (mkAttemptRecord env maxIterations ctx),
            decide (c < i + ps.length)) := by
  intro ps
  induction ps with
  | nil =>
    intro i
    simp [runPairs, cancelArrived]
  | cons p rest ih =>
    intro i
    by_cases hci : c < i
    · have h0 : c + 1 - i = 0 := by omega
      have h1 : c < i + (p :: rest).length := by
        simp only [List.length_cons]
        omega
      simp only [runPairs, cancelArrived, hci, decide_True, if_true, h0,
        List.take_zero, List.map_nil, List.length_cons]
      refine Prod.ext rfl ?_
      simp
      omega
    · have htake : c + 1 - i = (c + 1 - (i + 1)) + 1 := by omega
      rw [htake]
      simp only [runPairs, cancelArrived, hci, decide_False, if_false, ih (i + 1),
        List.take_succ_cons, List.map_cons]
      refine Prod.ext rfl ?_
      have harith : i + 1 + rest.length = i + (p :: rest).length := by
        simp only [List.length_cons]
        omega
      simp [harith]

/-- C6: when a cancellation request arrives while attempt `c` (0-based) is in
progress, that attempt still completes its stage sequence to a terminal state
and is recorded, every earlier attempt remains recorded (the records are
exactly the first `c + 1` records of the uncancelled run), no later attempt
is ever started, and the RunRecord's terminal status is `cancelled`. -/
theorem cancellation_cooperative (env : Env) (maxIterations : ℕ) (ctx : String)
    (pairs : List (String × TaskDefinition)) (c : ℕ)
    (hmax : 1 ≤ maxIterations) (hc : c < pairs.length) :
    (runCoordinator env maxIterations ctx pairs (some c)).status = .cancelled ∧
    (runCoordinator env maxIterations ctx pairs (some c)).records
      = (pairs.take (c + 1)).map (mkAttemptRecord env maxIterations ctx) ∧
    (runCoordinator env maxIterations ctx pairs (some c)).records.length = c + 1 ∧
    (runCoordinator env maxIterations ctx pairs (some c)).records
      = (runCoordinator env maxIterations ctx pairs none).records.take (c + 1) ∧
    (∀ r ∈ (runCoordinator env maxIterations ctx pairs (some c)).records,
      isTerminal r.report.final = true) := by
  have hsome := runPairs_some_eq env maxIterations ctx c pairs 0
  have hnone := runPairs_none_eq env maxIterations ctx pairs 0
  have hflag : (runPairs env maxIterations ctx (some c) pairs 0).2 = true := by
    rw [hsome]
    simpa using hc
  have hrec : (runPairs env maxIterations ctx (some c) pairs 0).1
      = (pairs.take (c + 1)).map (mkAttemptRecord env maxIterations ctx) := by
    rw [hsome]
    simp
  refine ⟨?_, hrec, ?_, ?_, ?_⟩
  · simp [runCoordinator, hflag]
  · show (runPairs env maxIterations ctx (some c) pairs 0).1.length = c + 1
    rw [hrec]
    simp only [List.length_map, List.length_take]
    omega
  · show (runPairs env maxIterations ctx (some c) pairs 0).1
      = (runPairs env maxIterations ctx none pairs 0).1.take (c + 1)
    rw [hrec, hnone]
    simp [List.map_take]
  · intro r hr
    rw [show (runCoordinator env maxIterations ctx pairs (some c)).records
        = (runPairs env maxIterations ctx (some c) pairs 0).1 from rfl, hrec] at hr
    obtain ⟨p, -, rfl⟩ := List.mem_map.mp hr
    exact runAttempt_terminal env p.2 ctx hmax

/-- Closed witness for `cancellation_cooperative`: two attempts, cancellation
arriving during the first. -/
theorem cancellation_cooperative_witness :
    (runCoordinator ⟨fun _ => none, fun _ => none, fun _ => .applied []⟩
      1 "ctx" [("m1", taskA), ("m1", taskB)] (some 0)).status
      = RunStatus.cancelled :=
  (cancellation_cooperative ⟨fun _ => none, fun _ => none, fun _ => .applied []⟩
    1 "ctx" [("m1", taskA), ("m1", taskB)] 0 (by omega) (by decide)).1

end GoldenDataset
